import Mathlib

/-!
Verification of the `rss-ai-analyst` ingestion-to-digest pipeline.

The pipeline (all three observed variants share its logic) is embedded
shallowly:

* feed items, window/dedup filtering and normalization are pure list
  functions over an explicit clock value `now` (milliseconds, `Int`);
* the external judge is an oracle: `analyzeWithClaude` receives the list of
  textual responses (or transport failures), one per batch, instead of
  performing network calls;
* judge output is untrusted JSON: records are modelled as `Json` values and
  every property access, truthiness test and numeric coercion follows the
  JavaScript semantics the source relies on (absent property = `undefined`,
  access on `null` throws, `!r.skip` truthiness, `>=` numeric coercion);
* thrown exceptions are modelled with `Except Unit`;
* JSON numbers are modelled as integers (the judge schema uses integer
  scores 1-10); a fractional literal simply fails to parse, which the
  pipeline treats like any other malformed response.
-/

/-- Runtime JSON values, as produced by `JSON.parse`. -/
inductive Json where
  | null : Json
  | bool : Bool → Json
  | num : Int → Json
  | str : String → Json
  | arr : List Json → Json
  | obj : List (String × Json) → Json

/- The object-brace characters, written via code points to keep them out of
string and character literals. -/

def lbrace : Char := Char.ofNat 123

def rbrace : Char := Char.ofNat 125

/-- Last-one-wins field lookup: `JSON.parse` keeps the last duplicate key. -/
def lookupLast (fs : List (String × Json)) (k : String) : Option Json :=
  fs.foldl (fun acc p => if p.1 = k then some p.2 else acc) none

/-- JavaScript property access `j[k]`: returns `none` for `undefined`;
accessing a property of `null` throws a `TypeError`. -/
def jsGetProp (j : Json) (k : String) : Except Unit (Option Json) :=
  match j with
  | Json.null => Except.error ()
  | Json.obj fs => Except.ok (lookupLast fs k)
  | _ => Except.ok none

/-- JavaScript truthiness of a possibly-`undefined` value. -/
def jsTruthy (v : Option Json) : Bool :=
  match v with
  | none => false
  | some Json.null => false
  | some (Json.bool b) => b
  | some (Json.num n) => !(n == 0)
  | some (Json.str s) => !s.isEmpty
  | some (Json.arr _) => true
  | some (Json.obj _) => true

/-- Trimmed decimal-integer reading used by string-to-number coercion. -/
def strToInt (s : String) : Option Int :=
  let t := s.trim
  if t.isEmpty then some 0
  else
    let (sign, ds) :=
      match t.data with
      | '-' :: rest => ((-1 : Int), rest)
      | l => ((1 : Int), l)
    if ds ≠ [] ∧ ds.all Char.isDigit then
      some (sign * Int.ofNat (ds.foldl (fun a c => a * 10 + (c.toNat - 48)) 0))
    else none

/-- JavaScript `ToNumber` coercion; `none` models `NaN`. -/
def toNumber (j : Json) : Option Int :=
  match j with
  | Json.null => some 0
  | Json.bool b => some (if b then 1 else 0)
  | Json.num n => some n
  | Json.str s => strToInt s
  | Json.arr _ => none
  | Json.obj _ => none

/-- JavaScript `v >= min` where `min` is a number: `undefined`/`NaN`
compare false. -/
def jsGE (v : Option Json) (min : Int) : Bool :=
  match v with
  | none => false
  | some j =>
    match toNumber j with
    | some n => decide (min ≤ n)
    | none => false

mutual
/-- Template-literal stringification of a JSON value (ECMAScript
`ToString`). -/
def displayJson : Json → String
  | Json.null => "null"
  | Json.bool b => cond b "true" "false"
  | Json.num n => toString n
  | Json.str s => s
  | Json.arr xs => displayArr xs
  | Json.obj _ => "[object Object]"

/-- `Array.prototype.toString` body: comma-joined elements with `null`
rendered as the empty string. -/
def displayArr : List Json → String
  | [] => ""
  | x :: xs =>
    (match x with
     | Json.null => ""
     | y => displayJson y) ++
    (match xs with
     | [] => ""
     | _ :: _ => "," ++ displayArr xs)
end

/-- Stringification of a possibly-`undefined` value inside a template
literal. -/
def jsDisplay (v : Option Json) : String :=
  match v with
  | none => "undefined"
  | some j => displayJson j

/-! ## JSON parsing (`JSON.parse`)

A recursive-descent parser over the character list, with a fuel argument
bounding recursion depth.  `none` models a thrown `SyntaxError`. -/

def jsonWs (c : Char) : Bool :=
  c = ' ' || c = '\n' || c = '\t' || c = '\r'

def skipWs (cs : List Char) : List Char :=
  cs.dropWhile jsonWs

/-- JSON string escapes (`\uXXXX` is not modelled: such input fails to
parse, which the pipeline treats as a malformed batch). -/
def escCharMap (c : Char) : Option Char :=
  if c = '"' then some '"'
  else if c = '\\' then some '\\'
  else if c = '/' then some '/'
  else if c = 'n' then some '\n'
  else if c = 't' then some '\t'
  else if c = 'r' then some '\r'
  else if c = 'b' then some (Char.ofNat 8)
  else if c = 'f' then some (Char.ofNat 12)
  else none

/-- Characters of a JSON string body, after the opening quote. -/
def parseStringChars : List Char → Option (List Char × List Char)
  | [] => none
  | c :: cs =>
    if c = '"' then some ([], cs)
    else if c = '\\' then
      match cs with
      | [] => none
      | e :: cs' =>
        match escCharMap e with
        | none => none
        | some ec =>
          match parseStringChars cs' with
          | none => none
          | some (acc, rest) => some (ec :: acc, rest)
    else
      match parseStringChars cs with
      | none => none
      | some (acc, rest) => some (c :: acc, rest)

def parseDigits : List Char → (List Char × List Char)
  | [] => ([], [])
  | c :: cs =>
    if c.isDigit then
      let (ds, r) := parseDigits cs
      (c :: ds, r)
    else ([], c :: cs)

def digitsToNat (ds : List Char) : Nat :=
  ds.foldl (fun a c => a * 10 + (c.toNat - 48)) 0

/-- An integer JSON number token. -/
def parseIntToken (cs : List Char) : Option (Int × List Char) :=
  match cs with
  | '-' :: rest =>
    match parseDigits rest with
    | ([], _) => none
    | (ds, r) => some (-(Int.ofNat (digitsToNat ds)), r)
  | _ =>
    match parseDigits cs with
    | ([], _) => none
    | (ds, r) => some (Int.ofNat (digitsToNat ds), r)

mutual
def parseValue : Nat → List Char → Option (Json × List Char)
  | 0, _ => none
  | Nat.succ fuel, cs =>
    match skipWs cs with
    | [] => none
    | c :: rest =>
      if c = 'n' then
        match rest with
        | 'u' :: 'l' :: 'l' :: r => some (Json.null, r)
        | _ => none
      else if c = 't' then
        match rest with
        | 'r' :: 'u' :: 'e' :: r => some (Json.bool true, r)
        | _ => none
      else if c = 'f' then
        match rest with
        | 'a' :: 'l' :: 's' :: 'e' :: r => some (Json.bool false, r)
        | _ => none
      else if c = '"' then
        match parseStringChars rest with
        | some (s, r) => some (Json.str (String.mk s), r)
        | none => none
      else if c = '[' then
        match skipWs rest with
        | ']' :: r => some (Json.arr [], r)
        | cs2 =>
          match parseValue fuel cs2 with
          | none => none
          | some (v, r) =>
            match parseArrayRest fuel r with
            | some (vs, r') => some (Json.arr (v :: vs), r')
            | none => none
      else if c = lbrace then
        match skipWs rest with
        | [] => none
        | c2 :: r2 =>
          if c2 = rbrace then some (Json.obj [], r2)
          else
            match parseMember fuel (c2 :: r2) with
            | none => none
            | some (kv, r) =>
              match parseObjRest fuel r with
              | some (kvs, r') => some (Json.obj (kv :: kvs), r')
              | none => none
      else
        match parseIntToken (c :: rest) with
        | some (n, r) => some (Json.num n, r)
        | none => none

def parseArrayRest : Nat → List Char → Option (List Json × List Char)
  | 0, _ => none
  | Nat.succ fuel, cs =>
    match skipWs cs with
    | ']' :: r => some ([], r)
    | ',' :: r =>
      match parseValue fuel r with
      | none => none
      | some (v, r') =>
        match parseArrayRest fuel r' with
        | some (vs, r'') => some (v :: vs, r'')
        | none => none
    | _ => none

def parseMember : Nat → List Char → Option ((String × Json) × List Char)
  | 0, _ => none
  | Nat.succ fuel, cs =>
    match skipWs cs with
    | '"' :: r =>
      match parseStringChars r with
      | none => none
      | some (k, r') =>
        match skipWs r' with
        | ':' :: r'' =>
          match parseValue fuel r'' with
          | some (v, r3) => some ((String.mk k, v), r3)
          | none => none
        | _ => none
    | _ => none

def parseObjRest : Nat → List Char → Option (List (String × Json) × List Char)
  | 0, _ => none
  | Nat.succ fuel, cs =>
    match skipWs cs with
    | [] => none
    | c :: r =>
      if c = rbrace then some ([], r)
      else if c = ',' then
        match parseMember fuel r with
        | none => none
        | some (kv, r') =>
          match parseObjRest fuel r' with
          | some (kvs, r'') => some (kv :: kvs, r'')
          | none => none
      else none
end

/-- `JSON.parse`: the whole input (up to trailing whitespace) must be one
value. -/
def Json.parse (s : String) : Option Json :=
  match parseValue (s.length + 1) s.data with
  | some (v, rest) => if (skipWs rest).isEmpty then some v else none
  | none => none

/-! ## Regex extraction

`responseText.match(/\x5b[\s\S]*\x5d/)`: the leftmost-longest match runs
from the first opening bracket of the text to the last closing bracket,
greedily spanning everything in between. -/

/-- The matched substring of the judge response, or `none` when the regex
does not match (no opening bracket followed by a closing one). -/
def extractArrayMatch (s : String) : Option String :=
  let t := s.data.dropWhile (fun c => c ≠ '[')
  let u := (t.reverse.dropWhile (fun c => c ≠ ']')).reverse
  match u with
  | [] => none
  | _ :: _ => some (String.mk u)

/-! ## Configuration and the feed stage -/

/-- `CONFIG` fields used by the pipeline logic (recipient identity and
credentials play no role in the verified behavior). -/
structure Config where
  maxArticlesPerFeed : Nat
  hoursLookback : Int
  minRelevanceScore : Int
  maxArticlesInBrief : Nat
deriving DecidableEq

/-- The main variant's `CONFIG` object. -/
def CONFIG : Config :=
  { maxArticlesPerFeed := 3
    hoursLookback := 48
    minRelevanceScore := 5
    maxArticlesInBrief := 15 }

/-- A raw item from `rss-parser`.  `pubDate` is the item's publish time in
milliseconds; `none` models an absent (or empty, hence falsy) date field.
`title`/`link`/`content`/`contentSnippet`/`summary` are optional strings;
`some ""` is falsy like `none` under `||`. -/
structure RawItem where
  title : Option String
  link : Option String
  pubDate : Option Int
  content : Option String
  contentSnippet : Option String
  summary : Option String
deriving DecidableEq

/-- A normalized `Article`. -/
structure Article where
  title : String
  link : String
  pubDate : Int
  content : String
deriving DecidableEq

/-- JavaScript `v || d` for an optional string (empty string is falsy). -/
def jsOrStr (v : Option String) (d : String) : String :=
  match v with
  | some s => if s.isEmpty then d else s
  | none => d

/-- The `.map` step of `fetchRecentArticles`: field fallbacks of one item. -/
def normalizeItem (now : Int) (it : RawItem) : Article :=
  { title := jsOrStr it.title "Untitled"
    link := jsOrStr it.link ""
    pubDate := it.pubDate.getD now
    content := jsOrStr it.content (jsOrStr it.contentSnippet (jsOrStr it.summary "")) }

/-- `cutoffDate = Date.now() - hoursLookback * 60 * 60 * 1000`. -/
def cutoffOf (cfg : Config) (now : Int) : Int :=
  now - cfg.hoursLookback * 60 * 60 * 1000

/-- The publish time the window filter compares:
`item.pubDate ? new Date(item.pubDate) : new Date()`. -/
def rawPubDate (now : Int) (it : RawItem) : Int :=
  it.pubDate.getD now

/-- The window predicate `pubDate > cutoffDate` of one raw item. -/
def isRecent (cfg : Config) (now : Int) (it : RawItem) : Bool :=
  decide (cutoffOf cfg now < rawPubDate now it)

/-- One feed's contribution before deduplication, exactly as chained in the
source: window-filter the parsed items, then `.slice(0, maxArticlesPerFeed)`,
then normalize. -/
def perFeedRecent (cfg : Config) (now : Int) (items : List RawItem) : List Article :=
  ((items.filter (isRecent cfg now)).take cfg.maxArticlesPerFeed).map (normalizeItem now)

/-- The dedup `.filter` with its `seenLinks` side effect: returns the kept
articles and the updated seen-set (modelled as a list of links). -/
def dedupStep (seen : List String) : List Article → (List Article × List String)
  | [] => ([], seen)
  | a :: l =>
    if a.link ∈ seen then dedupStep seen l
    else
      let p := dedupStep (a.link :: seen) l
      (a :: p.1, p.2)

/-- Deduplication alone (kept articles, ignoring the final seen-set). -/
def dedupGo (seen : List String) : List Article → List Article
  | [] => []
  | a :: l =>
    if a.link ∈ seen then dedupGo seen l
    else a :: dedupGo (a.link :: seen) l

/-- Cross-feed dedup keyed on `link`, starting from an empty seen-set. -/
def dedupByLink (l : List Article) : List Article :=
  dedupGo [] l

/-- One iteration of the feed loop.  A failed fetch/parse is caught and the
feed contributes nothing; a successful feed's items are windowed, truncated,
normalized and deduplicated against the shared seen-set. -/
def fetchStep (cfg : Config) (now : Int) (acc : List Article × List String)
    (feed : Except Unit (List RawItem)) : List Article × List String :=
  match feed with
  | Except.error _ => acc
  | Except.ok items =>
    let p := dedupStep acc.2 (perFeedRecent cfg now items)
    (acc.1 ++ p.1, p.2)

/-- `fetchRecentArticles`, with each feed's fetch/parse outcome supplied as
an input (`Except.error` models a thrown fetch/parse failure). -/
def fetchRecentArticles (cfg : Config) (now : Int)
    (feeds : List (Except Unit (List RawItem))) : List Article :=
  (feeds.foldl (fetchStep cfg now) ([], [])).1

/-! ## The relevance analyzer -/

/-- The filter predicate `!r.skip && r.score >= CONFIG.minRelevanceScore`
over one parsed record, in JavaScript semantics (`&&` short-circuits, so
`score` is only read when `skip` is falsy; property access may throw). -/
def relevantPred (min : Int) (r : Json) : Except Unit Bool := do
  let sv ← jsGetProp r "skip"
  if jsTruthy sv then pure false
  else do
    let scv ← jsGetProp r "score"
    pure (jsGE scv min)

/-- `Array.prototype.filter` with a possibly-throwing predicate. -/
def filterE (p : α → Except Unit Bool) : List α → Except Unit (List α)
  | [] => Except.ok []
  | a :: l => do
    let b ← p a
    let r ← filterE p l
    pure (if b then a :: r else r)

/-- `results.filter(r => !r.skip && r.score >= CONFIG.minRelevanceScore)`. -/
def filterRelevant (min : Int) (rs : List Json) : Except Unit (List Json) :=
  filterE (relevantPred min) rs

/-- Total restatement of the kept-record condition (for records on which
property access cannot throw, i.e. everything except `null`). -/
def keepsRecord (min : Int) (r : Json) : Bool :=
  match jsGetProp r "skip" with
  | Except.error _ => false
  | Except.ok sv =>
    if jsTruthy sv then false
    else
      match jsGetProp r "score" with
      | Except.error _ => false
      | Except.ok scv => jsGE scv min

/-- Records contributed by one batch: extract the bracketed substring,
`JSON.parse` it, filter by skip/threshold.  Any thrown error (no regex
match is not an error but yields nothing; parse failure and filter
failure are) is caught by the per-batch `try`, so the batch contributes
zero records. -/
def parseBatchResponse (min : Int) (text : String) : List Json :=
  match extractArrayMatch text with
  | none => []
  | some s =>
    match Json.parse s with
    | some (Json.arr xs) =>
      match filterRelevant min xs with
      | Except.ok kept => kept
      | Except.error _ => []
    | _ => []

/-- One batch's outcome given the judge transport result: a transport
failure is caught and contributes nothing. -/
def batchOutcome (min : Int) (resp : Except Unit String) : List Json :=
  match resp with
  | Except.error _ => []
  | Except.ok text => parseBatchResponse min text

/-- `batchSize = 5`. -/
def batchSize : Nat := 5

/-- `articles.slice(i, i + batchSize)` for `i = 0, 5, 10, ...`: the batch
partition of the article list into groups of `batchSize = 5` (the last
group may be shorter). -/
def chunk5 : List Article → List (List Article)
  | [] => []
  | [a] => [[a]]
  | [a, b] => [[a, b]]
  | [a, b, c] => [[a, b, c]]
  | [a, b, c, d] => [[a, b, c, d]]
  | a :: b :: c :: d :: e :: rest => [a, b, c, d, e] :: chunk5 rest

/-- The sort key of `(a, b) => b.score - a.score`: the numeric coercion of
the record's `score`.  Filter survivors always have a numeric score; a
`NaN` comparator result is treated as `0` by the ECMAScript sort
algorithm, which the `getD 0` fallback mirrors. -/
def sortKey (r : Json) : Int :=
  match r with
  | Json.obj fs =>
    match lookupLast fs "score" with
    | some v => (toNumber v).getD 0
    | none => 0
  | _ => 0

/-- Stable insertion of a record (originally positioned before every
element of the list) into a score-descending list: among equal scores the
earlier-emitted record stays first, as required of the ECMAScript stable
sort. -/
def insertDesc (x : Json) : List Json → List Json
  | [] => [x]
  | y :: ys =>
    if sortKey y ≤ sortKey x then x :: y :: ys
    else y :: insertDesc x ys

/-- `analyzed.sort((a, b) => b.score - a.score)`: stable, score
descending. -/
def sortByScoreDesc : List Json → List Json
  | [] => []
  | x :: xs => insertDesc x (sortByScoreDesc xs)

/-- `.sort(...).slice(0, CONFIG.maxArticlesInBrief)`. -/
def rankAndTruncate (maxB : Nat) (l : List Json) : List Json :=
  (sortByScoreDesc l).take maxB

/-- `analyzeWithClaude`: batches the articles, consumes one judge response
per batch (the oracle input `responses`), accumulates the surviving parsed
records, then ranks and truncates.  The batch contents themselves only
shape the prompt, which the oracle already answers, so they do not appear
on the semantic path from response to output. -/
def analyzeWithClaude (cfg : Config) (articles : List Article)
    (responses : List (Except Unit String)) : List Json :=
  let analyzed :=
    ((chunk5 articles).zip responses).flatMap
      (fun p => batchOutcome cfg.minRelevanceScore p.2)
  rankAndTruncate cfg.maxArticlesInBrief analyzed

/-! ## The digest renderer (`formatEmailBrief`)

The analyzed records reaching the renderer are the raw parsed JSON values
(the TypeScript `AnalyzedArticle` interface performs no runtime
validation), so every field access below goes through the JavaScript
semantics and may throw.  The literal HTML boilerplate (inline CSS, emoji)
is abbreviated; tag structure, section order, conditionals and every field
access follow the source exactly. -/

/-- The configured feed list of the main variant; only its length reaches
the rendered output. -/
def RSS_FEEDS_count : Nat := 26

/-- Substring occurrence (`String.prototype.includes`). -/
def substrCheck (needle : List Char) : List Char → Bool
  | [] => needle.isPrefixOf []
  | c :: cs => needle.isPrefixOf (c :: cs) || substrCheck needle cs

/-- `a.tags.includes(tag)`: throws when `tags` is absent or has no
`includes` method; string `tags` would do a substring test, an array tests
strict equality of elements. -/
def hasTag (tag : String) (a : Json) : Except Unit Bool := do
  let tv ← jsGetProp a "tags"
  match tv with
  | none => Except.error ()
  | some Json.null => Except.error ()
  | some (Json.str s) => Except.ok (substrCheck tag.data s.data)
  | some (Json.arr xs) =>
    Except.ok (xs.any (fun x =>
      match x with
      | Json.str s => s == tag
      | _ => false))
  | some _ => Except.error ()

/-- `a.opportunity` as a filter predicate (truthiness). -/
def hasOpportunity (a : Json) : Except Unit Bool := do
  let v ← jsGetProp a "opportunity"
  pure (jsTruthy v)

/-- `arr.join(sep)`: throws when the value has no `join` method. -/
def jsJoin (v : Option Json) (sep : String) : Except Unit String :=
  match v with
  | some (Json.arr xs) =>
    Except.ok (String.intercalate sep (xs.map (fun x =>
      match x with
      | Json.null => ""
      | y => displayJson y)))
  | _ => Except.error ()

/-- `summary.map(s => "<li>" + s + "</li>").join('')`: throws when
`summary` has no `map` method. -/
def jsMapBullets (v : Option Json) : Except Unit String :=
  match v with
  | some (Json.arr xs) =>
    Except.ok (String.join (xs.map (fun s => "<li>" ++ displayJson s ++ "</li>")))
  | _ => Except.error ()

/-- One `<li>` of a signal section: `<li><a href="url">title</a></li>`. -/
def sectionItem (a : Json) : Except Unit String := do
  let u ← jsGetProp a "url"
  let t ← jsGetProp a "title"
  pure ("<li><a href=\"" ++ jsDisplay u ++ "\">" ++ jsDisplay t ++ "</a></li>")

/-- A signal section: omitted entirely when its article list is empty. -/
def sectionHtml (heading : String) (xs : List Json) : Except Unit String :=
  if xs.length > 0 then do
    let items ← xs.mapM sectionItem
    pure ("<h2>" ++ heading ++ "</h2><ul>" ++ String.join items ++ "</ul>")
  else pure ""

/-- The opportunities section: `<li>` per article's `opportunity` field. -/
def opportunitiesHtml (xs : List Json) : Except Unit String :=
  if xs.length > 0 then do
    let items ← xs.mapM (fun a => do
      let v ← jsGetProp a "opportunity"
      pure ("<li>" ++ jsDisplay v ++ "</li>"))
    pure ("<h2>RouteAI Opportunities</h2><ul>" ++ String.join items ++ "</ul>")
  else pure ""

/-- One entry of the full ranked list, with the field accesses in the
evaluation order of the source template literal. -/
def renderEntry (idx : Nat) (a : Json) : Except Unit String := do
  let title ← jsGetProp a "title"
  let score ← jsGetProp a "score"
  let tags ← jsGetProp a "tags"
  let tagsJoined ← jsJoin tags ", "
  let summary ← jsGetProp a "summary"
  let bullets ← jsMapBullets summary
  let whyM ← jsGetProp a "whyMatters"
  let opp ← jsGetProp a "opportunity"
  let url ← jsGetProp a "url"
  pure ("<div><h3>" ++ toString (idx + 1) ++ ". " ++ jsDisplay title ++ "</h3>"
    ++ "<p>Score: " ++ jsDisplay score ++ "/10 · " ++ tagsJoined ++ "</p>"
    ++ "<ul>" ++ bullets ++ "</ul>"
    ++ "<p><strong>Why this matters:</strong> " ++ jsDisplay whyM ++ "</p>"
    ++ (if jsTruthy opp
        then "<p><strong>RouteAI:</strong> " ++ jsDisplay opp ++ "</p>"
        else "")
    ++ "<p><a href=\"" ++ jsDisplay url ++ "\">Read full article</a></p></div>")

/-- The `articles.forEach((article, idx) => ...)` loop. -/
def renderEntries (idx : Nat) : List Json → Except Unit String
  | [] => Except.ok ""
  | a :: l => do
    let e ← renderEntry idx a
    let r ← renderEntries (idx + 1) l
    pure (e ++ r)

/-- `formatEmailBrief` of the main variant: the four section filters run
first (in source order), then the header, the conditional sections, and
the full entry list are concatenated.  The date string stands in for
`new Date().toLocaleDateString('nl-NL', ...)`. -/
def formatEmailBrief (dateStr : String) (articles : List Json) : Except Unit String := do
  let regulatory ← filterE (hasTag "Regulatory") articles
  let market ← filterE (hasTag "Market") articles
  let jobs ← filterE (hasTag "Jobs") articles
  let opportunities ← filterE hasOpportunity articles
  let header := "<h1>Daily AI Governance Intelligence Brief</h1><p><strong>"
    ++ dateStr ++ "</strong> · " ++ toString articles.length
    ++ " relevant items · " ++ toString RSS_FEEDS_count
    ++ " sources monitored</p><hr>"
  let regSec ← sectionHtml "Regulatory Signals" regulatory
  let mktSec ← sectionHtml "Market Signals" market
  let jobsSec ← sectionHtml "Jobs Signals" jobs
  let oppSec ← opportunitiesHtml opportunities
  let entries ← renderEntries 0 articles
  pure (header ++ regSec ++ mktSec ++ jobsSec ++ oppSec
    ++ "<hr><h2>Selected Articles</h2>" ++ entries
    ++ "<hr><p>RouteAI Intelligence Brief · Powered by Claude · "
    ++ toString RSS_FEEDS_count ++ " sources monitored</p>")

/-! ## The run driver (`processAndSendBrief`) -/

/-- The observable outcome of one run: the two "nothing to report"
terminals, a sent mail (carrying the digest body), or the outer
catch-all. -/
inductive RunOutcome where
  | noArticles : RunOutcome
  | noRelevant : RunOutcome
  | sent : Nat → String → RunOutcome
  | failed : RunOutcome
deriving DecidableEq

/-- `processAndSendBrief`: fetch, early-return on zero articles, analyze,
early-return on zero analyzed, render, send.  A throw after the early
returns (e.g. in rendering) is caught by the outer `try` and yields the
run-level failure; mail is sent only on the `sent` outcome. -/
def processAndSendBrief (cfg : Config) (now : Int) (dateStr : String)
    (feeds : List (Except Unit (List RawItem)))
    (responses : List (Except Unit String)) : RunOutcome :=
  let articles := fetchRecentArticles cfg now feeds
  if articles.isEmpty then RunOutcome.noArticles
  else
    let analyzed := analyzeWithClaude cfg articles responses
    if analyzed.isEmpty then RunOutcome.noRelevant
    else
      match formatEmailBrief dateStr analyzed with
      | Except.error _ => RunOutcome.failed
      | Except.ok html => RunOutcome.sent analyzed.length html

/-! ## Supporting lemmas: the relevance filter -/

theorem filterE_ok_forall {α : Type} {p : α → Except Unit Bool} {l kept : List α}
    (h : filterE p l = Except.ok kept) :
    ∀ r ∈ kept, p r = Except.ok true ∧ r ∈ l := by
  induction l generalizing kept with
  | nil =>
    simp only [filterE, Except.ok.injEq] at h
    subst h
    simp
  | cons a t ih =>
    simp only [filterE, bind, Except.bind] at h
    cases hpa : p a with
    | error e => rw [hpa] at h; cases h
    | ok b =>
      rw [hpa] at h
      cases hft : filterE p t with
      | error e => rw [hft] at h; cases h
      | ok rest =>
        rw [hft] at h
        simp only [pure, Except.pure, Except.ok.injEq] at h
        subst h
        intro r hr
        cases b with
        | true =>
          rcases List.mem_cons.mp hr with rfl | hr'
          · exact ⟨hpa, List.mem_cons_self r t⟩
          · rcases ih hft r hr' with ⟨h1, h2⟩
            exact ⟨h1, List.mem_cons_of_mem a h2⟩
        | false =>
          rcases ih hft r hr with ⟨h1, h2⟩
          exact ⟨h1, List.mem_cons_of_mem a h2⟩

theorem filterE_ok_keeps {α : Type} {p : α → Except Unit Bool} {l kept : List α}
    (h : filterE p l = Except.ok kept) {r : α} (hr : r ∈ l)
    (hp : p r = Except.ok true) : r ∈ kept := by
  induction l generalizing kept with
  | nil => cases hr
  | cons a t ih =>
    simp only [filterE, bind, Except.bind] at h
    cases hpa : p a with
    | error e => rw [hpa] at h; cases h
    | ok b =>
      rw [hpa] at h
      cases hft : filterE p t with
      | error e => rw [hft] at h; cases h
      | ok rest =>
        rw [hft] at h
        simp only [pure, Except.pure, Except.ok.injEq] at h
        subst h
        rcases List.mem_cons.mp hr with rfl | hr'
        · rw [hpa] at hp
          cases hp
          exact List.mem_cons_self r rest
        · cases b with
          | true => exact List.mem_cons_of_mem a (ih hft hr')
          | false => exact ih hft hr'

theorem filterE_ok_of_fn {α : Type} {p : α → Except Unit Bool} {q : α → Bool}
    {l : List α} (h : ∀ a ∈ l, p a = Except.ok (q a)) :
    filterE p l = Except.ok (l.filter q) := by
  induction l with
  | nil => rfl
  | cons a t ih =>
    simp only [filterE, bind, Except.bind, h a (List.mem_cons_self a t),
      ih (fun b hb => h b (List.mem_cons_of_mem a hb)), pure, Except.pure,
      List.filter_cons]

/-- A successful evaluation of the JavaScript filter predicate agrees with
its total restatement. -/
theorem keepsRecord_of_relevantPred {min : Int} {r : Json} {b : Bool}
    (h : relevantPred min r = Except.ok b) : keepsRecord min r = b := by
  unfold relevantPred at h
  unfold keepsRecord
  cases h1 : jsGetProp r "skip" with
  | error e => rw [h1] at h; simp [bind, Except.bind] at h
  | ok sv =>
    rw [h1] at h
    simp only [bind, Except.bind] at h
    by_cases ht : jsTruthy sv
    · simp only [ht, if_true, pure, Except.pure, Except.ok.injEq] at h
      simp [ht, ← h]
    · simp only [ht, if_false, Bool.false_eq_true] at h
      cases h2 : jsGetProp r "score" with
      | error e => rw [h2] at h; cases h
      | ok scv =>
        rw [h2] at h
        simp only [pure, Except.pure, Except.ok.injEq] at h
        simp [ht, h2, h]

/-- Unfolding of `keepsRecord min r = true`: the record's `skip` is falsy
and its `score` coerces to a number at least `min`. -/
theorem keepsRecord_spec {min : Int} {r : Json} (h : keepsRecord min r = true) :
    ∃ sv, jsGetProp r "skip" = Except.ok sv ∧ jsTruthy sv = false ∧
      ∃ scv, jsGetProp r "score" = Except.ok scv ∧ jsGE scv min = true := by
  unfold keepsRecord at h
  cases h1 : jsGetProp r "skip" with
  | error e => rw [h1] at h; cases h
  | ok sv =>
    rw [h1] at h
    by_cases ht : jsTruthy sv
    · simp [ht] at h
    · simp only [ht, if_false, Bool.false_eq_true] at h
      cases h2 : jsGetProp r "score" with
      | error e => rw [h2] at h; cases h
      | ok scv =>
        rw [h2] at h
        refine ⟨sv, ?_, by simp [ht], scv, ?_, h⟩ <;> simp [h1, h2]


/-! ## Supporting lemmas: the stable descending sort -/

theorem mem_insertDesc {r x : Json} {l : List Json} :
    r ∈ insertDesc x l ↔ r = x ∨ r ∈ l := by
  induction l with
  | nil => simp [insertDesc]
  | cons y ys ih =>
    by_cases h : sortKey y ≤ sortKey x
    · simp only [insertDesc, if_pos h]
      simp only [List.mem_cons]
    · simp only [insertDesc, if_neg h]
      simp only [List.mem_cons, ih]
      tauto

theorem insertDesc_perm (x : Json) (l : List Json) :
    (insertDesc x l).Perm (x :: l) := by
  induction l with
  | nil => exact List.Perm.refl _
  | cons y ys ih =>
    by_cases h : sortKey y ≤ sortKey x
    · simp [insertDesc, h]
    · simp only [insertDesc, if_neg h]
      exact (List.Perm.cons y ih).trans (List.Perm.swap x y ys)

theorem sortByScoreDesc_perm (l : List Json) : (sortByScoreDesc l).Perm l := by
  induction l with
  | nil => exact List.Perm.refl _
  | cons x xs ih =>
    exact (insertDesc_perm x (sortByScoreDesc xs)).trans (List.Perm.cons x ih)

theorem insertDesc_pairwise {x : Json} {l : List Json}
    (h : List.Pairwise (fun a b => sortKey b ≤ sortKey a) l) :
    List.Pairwise (fun a b => sortKey b ≤ sortKey a) (insertDesc x l) := by
  induction l with
  | nil => simp [insertDesc]
  | cons y ys ih =>
    rcases List.pairwise_cons.mp h with ⟨hy, hys⟩
    by_cases hc : sortKey y ≤ sortKey x
    · simp only [insertDesc, if_pos hc]
      refine List.pairwise_cons.mpr ⟨?_, h⟩
      intro z hz
      rcases List.mem_cons.mp hz with rfl | hz'
      · exact hc
      · exact le_trans (hy z hz') hc
    · simp only [insertDesc, if_neg hc]
      refine List.pairwise_cons.mpr ⟨?_, ih hys⟩
      intro z hz
      rcases mem_insertDesc.mp hz with rfl | hz'
      · exact le_of_lt (lt_of_not_le hc)
      · exact hy z hz'

theorem sortByScoreDesc_sorted (l : List Json) :
    List.Pairwise (fun a b => sortKey b ≤ sortKey a) (sortByScoreDesc l) := by
  induction l with
  | nil => simp [sortByScoreDesc]
  | cons x xs ih => exact insertDesc_pairwise ih

theorem insertDesc_filter_key (x : Json) (l : List Json) (k : Int) :
    (insertDesc x l).filter (fun r => sortKey r == k) =
      (if sortKey x == k then x :: l.filter (fun r => sortKey r == k)
       else l.filter (fun r => sortKey r == k)) := by
  induction l with
  | nil =>
    cases hk : (sortKey x == k) <;> simp [insertDesc, List.filter, hk]
  | cons y ys ih =>
    by_cases hc : sortKey y ≤ sortKey x
    · cases hk : (sortKey x == k) <;>
        simp [insertDesc, hc, List.filter_cons, hk]
    · by_cases hk : (sortKey x == k) = true
      · have hxk : sortKey x = k := eq_of_beq hk
        have hyk : (sortKey y == k) = false := by
          have hlt : sortKey x < sortKey y := lt_of_not_le hc
          rw [hxk] at hlt
          simp only [beq_eq_false_iff_ne, ne_eq]
          omega
        simp [insertDesc, hc, List.filter_cons, hyk, hk, ih]
      · simp only [Bool.not_eq_true] at hk
        cases hyk : (sortKey y == k) <;>
          simp [insertDesc, hc, List.filter_cons, ih, hk, hyk]

theorem sortByScoreDesc_filter_key (l : List Json) (k : Int) :
    (sortByScoreDesc l).filter (fun r => sortKey r == k) =
      l.filter (fun r => sortKey r == k) := by
  induction l with
  | nil => rfl
  | cons x xs ih =>
    simp only [sortByScoreDesc, insertDesc_filter_key, ih, List.filter_cons]

/-! ## Supporting lemmas: the dedup filter and the feed loop -/

theorem dedupStep_fst (seen : List String) (l : List Article) :
    (dedupStep seen l).1 = dedupGo seen l := by
  induction l generalizing seen with
  | nil => rfl
  | cons a t ih =>
    by_cases h : a.link ∈ seen <;> simp [dedupStep, dedupGo, h, ih]

theorem dedupStep_append (seen : List String) (xs ys : List Article) :
    dedupStep seen (xs ++ ys) =
      ((dedupStep seen xs).1 ++ (dedupStep (dedupStep seen xs).2 ys).1,
       (dedupStep (dedupStep seen xs).2 ys).2) := by
  induction xs generalizing seen with
  | nil => simp [dedupStep]
  | cons a t ih =>
    by_cases h : a.link ∈ seen <;> simp [dedupStep, h, ih]

theorem dedupGo_sublist (seen : List String) (l : List Article) :
    (dedupGo seen l).Sublist l := by
  induction l generalizing seen with
  | nil => simp [dedupGo]
  | cons a t ih =>
    by_cases h : a.link ∈ seen
    · simp only [dedupGo, if_pos h]
      exact (ih seen).cons a
    · simp only [dedupGo, if_neg h]
      exact (ih (a.link :: seen)).cons₂ a

theorem dedupGo_mem_not_seen {seen : List String} {l : List Article} {a : Article}
    (h : a ∈ dedupGo seen l) : a.link ∉ seen := by
  induction l generalizing seen with
  | nil => cases h
  | cons b t ih =>
    by_cases hb : b.link ∈ seen
    · rw [dedupGo, if_pos hb] at h
      exact ih h
    · rw [dedupGo, if_neg hb] at h
      rcases List.mem_cons.mp h with rfl | h'
      · exact hb
      · intro hmem
        exact ih h' (List.mem_cons_of_mem _ hmem)

theorem dedupGo_pairwise (seen : List String) (l : List Article) :
    List.Pairwise (fun x y => x.link ≠ y.link) (dedupGo seen l) := by
  induction l generalizing seen with
  | nil => simp [dedupGo]
  | cons a t ih =>
    by_cases h : a.link ∈ seen
    · rw [dedupGo, if_pos h]
      exact ih seen
    · rw [dedupGo, if_neg h]
      refine List.pairwise_cons.mpr ⟨?_, ih (a.link :: seen)⟩
      intro b hb
      have := dedupGo_mem_not_seen hb
      intro heq
      exact this (heq ▸ List.mem_cons_self a.link seen)

theorem dedupGo_congr_seen {seen₁ seen₂ : List String}
    (h : ∀ s, s ∈ seen₁ ↔ s ∈ seen₂) (l : List Article) :
    dedupGo seen₁ l = dedupGo seen₂ l := by
  induction l generalizing seen₁ seen₂ with
  | nil => rfl
  | cons a t ih =>
    by_cases ha : a.link ∈ seen₁
    · rw [dedupGo, if_pos ha, dedupGo, if_pos ((h a.link).mp ha)]
      exact ih h
    · rw [dedupGo, if_neg ha, dedupGo, if_neg (fun hx => ha ((h a.link).mpr hx))]
      congr 1
      refine ih ?_
      intro s
      simp only [List.mem_cons]
      exact or_congr Iff.rfl (h s)

theorem dedupGo_cons_seen (k : String) (seen : List String) (l : List Article) :
    dedupGo (k :: seen) l = dedupGo seen (l.filter (fun b => !(b.link == k))) := by
  induction l generalizing seen with
  | nil => rfl
  | cons b t ih =>
    by_cases hbk : b.link = k
    · have hmem : b.link ∈ k :: seen := by simp [hbk]
      rw [dedupGo, if_pos hmem, List.filter_cons]
      simp only [hbk, beq_self_eq_true, Bool.not_true, Bool.false_eq_true,
        if_false]
      exact ih seen
    · have hfk : (!(b.link == k)) = true := by simp [hbk]
      rw [List.filter_cons, if_pos hfk]
      by_cases hb : b.link ∈ seen
      · have hmem : b.link ∈ k :: seen := List.mem_cons_of_mem k hb
        rw [dedupGo, if_pos hmem, dedupGo, if_pos hb]
        exact ih seen
      · have hmem : b.link ∉ k :: seen := by
          simp [List.mem_cons, hbk, hb]
        rw [dedupGo, if_neg hmem, dedupGo, if_neg hb]
        congr 1
        calc dedupGo (b.link :: k :: seen) t
            = dedupGo (k :: b.link :: seen) t := by
              refine dedupGo_congr_seen ?_ t
              intro s
              simp [List.mem_cons]
              tauto
          _ = dedupGo (b.link :: seen) (t.filter (fun c => !(c.link == k))) :=
              ih (b.link :: seen)

/-- The items one feed outcome contributes ahead of deduplication. -/
def feedContribution (cfg : Config) (now : Int)
    (f : Except Unit (List RawItem)) : List Article :=
  match f with
  | Except.ok items => perFeedRecent cfg now items
  | Except.error _ => []

theorem foldl_fetchStep (cfg : Config) (now : Int)
    (feeds : List (Except Unit (List RawItem)))
    (acc : List Article) (seen : List String) :
    feeds.foldl (fetchStep cfg now) (acc, seen) =
      (acc ++ (dedupStep seen (feeds.flatMap (feedContribution cfg now))).1,
       (dedupStep seen (feeds.flatMap (feedContribution cfg now))).2) := by
  induction feeds generalizing acc seen with
  | nil => simp [dedupStep]
  | cons f fs ih =>
    cases f with
    | error e =>
      simp only [List.foldl_cons]
      rw [show fetchStep cfg now (acc, seen) (Except.error e) = (acc, seen) from rfl]
      rw [ih]
      simp [List.flatMap_cons, feedContribution]
    | ok items =>
      simp only [List.foldl_cons]
      rw [show fetchStep cfg now (acc, seen) (Except.ok items) =
        (acc ++ (dedupStep seen (perFeedRecent cfg now items)).1,
         (dedupStep seen (perFeedRecent cfg now items)).2) from rfl]
      rw [ih]
      simp only [List.flatMap_cons, feedContribution, dedupStep_append,
        List.append_assoc]

theorem fetchRecentArticles_eq_dedup (cfg : Config) (now : Int)
    (feeds : List (Except Unit (List RawItem))) :
    fetchRecentArticles cfg now feeds =
      dedupByLink (feeds.flatMap (feedContribution cfg now)) := by
  unfold fetchRecentArticles dedupByLink
  rw [foldl_fetchStep]
  simp [dedupStep_fst]

/-! ## Supporting lemmas: regex extraction -/

theorem dropWhile_append_of_forall {p : Char → Bool} {l1 l2 : List Char}
    (h : ∀ c ∈ l1, p c = true) :
    List.dropWhile p (l1 ++ l2) = List.dropWhile p l2 := by
  induction l1 with
  | nil => rfl
  | cons c t ih =>
    rw [List.cons_append, List.dropWhile_cons,
      if_pos (h c (List.mem_cons_self c t))]
    exact ih (fun d hd => h d (List.mem_cons_of_mem c hd))

/-- When the judge response is a data block surrounded by prose that is
bracket-free on the relevant sides, the greedy first-to-last-bracket match
recovers exactly the block. -/
theorem extractArrayMatch_embedded {p1 block p2 : String} {mid : List Char}
    (h1 : '[' ∉ p1.data) (h2 : ']' ∉ p2.data)
    (hb : block.data = '[' :: (mid ++ [']'])) :
    extractArrayMatch (p1 ++ block ++ p2) = some block := by
  unfold extractArrayMatch
  have hdata : (p1 ++ block ++ p2).data = p1.data ++ (block.data ++ p2.data) := by
    rw [String.data_append, String.data_append, List.append_assoc]
  rw [hdata, hb]
  have hstep1 :
      List.dropWhile (fun c => c ≠ '[')
        (p1.data ++ (('[' :: (mid ++ [']'])) ++ p2.data)) =
      ('[' :: (mid ++ [']'])) ++ p2.data := by
    rw [dropWhile_append_of_forall (fun c hc => by
      simp only [decide_eq_true_eq, ne_eq]
      intro hceq
      exact h1 (hceq ▸ hc))]
    rw [List.cons_append, List.dropWhile_cons]
    simp
  rw [hstep1]
  dsimp only
  have hrev : ((('[' :: (mid ++ [']'])) ++ p2.data).reverse) =
      p2.data.reverse ++ (']' :: (mid.reverse ++ ['['])) := by
    simp [List.reverse_append, List.reverse_cons, List.append_assoc]
  rw [hrev]
  have hstep2 :
      List.dropWhile (fun c => c ≠ ']')
        (p2.data.reverse ++ (']' :: (mid.reverse ++ ['[']))) =
      ']' :: (mid.reverse ++ ['[']) := by
    rw [dropWhile_append_of_forall (fun c hc => by
      simp only [decide_eq_true_eq, ne_eq]
      intro hceq
      exact h2 (hceq ▸ (List.mem_reverse.mp hc)))]
    rw [List.dropWhile_cons]
    simp
  rw [hstep2]
  have hback : (']' :: (mid.reverse ++ ['['])).reverse = '[' :: (mid ++ [']']) := by
    simp [List.reverse_cons, List.reverse_append]
  rw [hback]
  have hstr : String.mk ('[' :: (mid ++ [']'])) = block := by
    rw [← hb]
  rw [hstr]

/-! ## Supporting lemmas: the renderer -/

/-- A record shaped as the judge schema promises: an object whose `tags`
and `summary` fields are arrays (the fields the renderer calls array
methods on). -/
def WellShaped (a : Json) : Prop :=
  ∃ fs ts ss, a = Json.obj fs ∧
    lookupLast fs "tags" = some (Json.arr ts) ∧
    lookupLast fs "summary" = some (Json.arr ss)

/-- Total restatement of the tag-section membership test for records whose
`tags` is an array. -/
def tagMem (tag : String) (a : Json) : Bool :=
  match a with
  | Json.obj fs =>
    match lookupLast fs "tags" with
    | some (Json.arr xs) =>
      xs.any (fun x =>
        match x with
        | Json.str s => s == tag
        | _ => false)
    | _ => false
  | _ => false

theorem hasTag_of_wellShaped {a : Json} (h : WellShaped a) (tag : String) :
    hasTag tag a = Except.ok (tagMem tag a) := by
  rcases h with ⟨fs, ts, ss, rfl, hts, hss⟩
  simp [hasTag, jsGetProp, bind, Except.bind, hts, tagMem]

theorem hasOpportunity_of_obj (fs : List (String × Json)) :
    hasOpportunity (Json.obj fs) =
      Except.ok (jsTruthy (lookupLast fs "opportunity")) := rfl

theorem mapM_ok_of_forall {f : Json → Except Unit String} {l : List Json}
    (h : ∀ a ∈ l, ∃ s, f a = Except.ok s) :
    ∃ ss, l.mapM f = Except.ok ss := by
  induction l with
  | nil => exact ⟨[], rfl⟩
  | cons a t ih =>
    rcases h a (List.mem_cons_self a t) with ⟨s, hs⟩
    rcases ih (fun b hb => h b (List.mem_cons_of_mem a hb)) with ⟨ss, hss⟩
    refine ⟨s :: ss, ?_⟩
    rw [List.mapM_cons, hs, hss]
    rfl

theorem sectionItem_ok (fs : List (String × Json)) :
    ∃ s, sectionItem (Json.obj fs) = Except.ok s := ⟨_, rfl⟩

theorem sectionHtml_ok {xs : List Json} (heading : String)
    (h : ∀ a ∈ xs, ∃ fs, a = Json.obj fs) :
    ∃ s, sectionHtml heading xs = Except.ok s := by
  unfold sectionHtml
  by_cases hx : xs.length > 0
  · rw [if_pos hx]
    have hmap : ∃ ss, xs.mapM sectionItem = Except.ok ss := by
      refine mapM_ok_of_forall ?_
      intro a ha
      rcases h a ha with ⟨fs, rfl⟩
      exact sectionItem_ok fs
    rcases hmap with ⟨ss, hss⟩
    rw [hss]
    exact ⟨_, rfl⟩
  · rw [if_neg hx]
    exact ⟨"", rfl⟩

theorem opportunitiesHtml_ok {xs : List Json}
    (h : ∀ a ∈ xs, ∃ fs, a = Json.obj fs) :
    ∃ s, opportunitiesHtml xs = Except.ok s := by
  unfold opportunitiesHtml
  by_cases hx : xs.length > 0
  · rw [if_pos hx]
    have hmap : ∃ ss, xs.mapM (fun a => do
        let v ← jsGetProp a "opportunity"
        pure ("<li>" ++ jsDisplay v ++ "</li>")) = Except.ok ss := by
      refine mapM_ok_of_forall ?_
      intro a ha
      rcases h a ha with ⟨fs, rfl⟩
      exact ⟨_, rfl⟩
    rcases hmap with ⟨ss, hss⟩
    rw [hss]
    exact ⟨_, rfl⟩
  · rw [if_neg hx]
    exact ⟨"", rfl⟩

theorem renderEntry_ok {a : Json} (idx : Nat) (h : WellShaped a) :
    ∃ s, renderEntry idx a = Except.ok s := by
  rcases h with ⟨fs, ts, ss, rfl, hts, hss⟩
  simp only [renderEntry, jsGetProp, bind, Except.bind, hts, hss, jsJoin,
    jsMapBullets]
  exact ⟨_, rfl⟩

theorem renderEntries_ok {l : List Json} (idx : Nat)
    (h : ∀ a ∈ l, WellShaped a) :
    ∃ s, renderEntries idx l = Except.ok s := by
  induction l generalizing idx with
  | nil => exact ⟨"", rfl⟩
  | cons a t ih =>
    rcases renderEntry_ok idx (h a (List.mem_cons_self a t)) with ⟨s, hs⟩
    rcases ih (idx + 1) (fun b hb => h b (List.mem_cons_of_mem a hb)) with ⟨r, hr⟩
    refine ⟨s ++ r, ?_⟩
    simp [renderEntries, bind, Except.bind, hs, hr, pure, Except.pure]

/-- Total restatement of the opportunities-section membership test. -/
def oppMem (a : Json) : Bool :=
  match a with
  | Json.obj fs => jsTruthy (lookupLast fs "opportunity")
  | _ => false

theorem hasOpportunity_of_wellShaped {a : Json} (h : WellShaped a) :
    hasOpportunity a = Except.ok (oppMem a) := by
  rcases h with ⟨fs, ts, ss, rfl, hts, hss⟩
  rfl

theorem formatEmailBrief_ok (dateStr : String) (articles : List Json)
    (h : ∀ a ∈ articles, WellShaped a) :
    ∃ s, formatEmailBrief dateStr articles = Except.ok s := by
  have hobj : ∀ a ∈ articles, ∃ fs, a = Json.obj fs := by
    intro a ha
    rcases h a ha with ⟨fs, ts, ss, heq, _, _⟩
    exact ⟨fs, heq⟩
  have hreg := filterE_ok_of_fn
    (fun a ha => hasTag_of_wellShaped (h a ha) "Regulatory")
  have hmkt := filterE_ok_of_fn
    (fun a ha => hasTag_of_wellShaped (h a ha) "Market")
  have hjobs := filterE_ok_of_fn
    (fun a ha => hasTag_of_wellShaped (h a ha) "Jobs")
  have hopp := filterE_ok_of_fn
    (fun a ha => hasOpportunity_of_wellShaped (h a ha))
  have hsub : ∀ tag : String, ∀ a ∈ articles.filter (tagMem tag),
      ∃ fs, a = Json.obj fs :=
    fun tag a ha => hobj a (List.mem_filter.mp ha).1
  obtain ⟨s1, hs1⟩ := sectionHtml_ok "Regulatory Signals" (hsub "Regulatory")
  obtain ⟨s2, hs2⟩ := sectionHtml_ok "Market Signals" (hsub "Market")
  obtain ⟨s3, hs3⟩ := sectionHtml_ok "Jobs Signals" (hsub "Jobs")
  obtain ⟨s4, hs4⟩ := @opportunitiesHtml_ok
    (articles.filter (fun a => oppMem a))
    (fun a ha => hobj a (List.mem_filter.mp ha).1)
  obtain ⟨se, hse⟩ := renderEntries_ok 0 h
  simp only [formatEmailBrief, bind, Except.bind, hreg, hmkt, hjobs, hopp,
    hs1, hs2, hs3, hs4, hse]
  exact ⟨_, rfl⟩

/-! ## Supporting lemmas: membership through the analyzer -/

theorem parseBatchResponse_keeps {min : Int} {text : String} {r : Json}
    (h : r ∈ parseBatchResponse min text) : keepsRecord min r = true := by
  unfold parseBatchResponse at h
  split at h
  · cases h
  · split at h
    · split at h
      · rename_i hf
        exact keepsRecord_of_relevantPred (filterE_ok_forall hf r h).1
      · cases h
    · cases h

theorem mem_analyzeWithClaude {cfg : Config} {arts : List Article}
    {resps : List (Except Unit String)} {r : Json}
    (h : r ∈ analyzeWithClaude cfg arts resps) :
    keepsRecord cfg.minRelevanceScore r = true := by
  simp only [analyzeWithClaude, rankAndTruncate] at h
  have h1 := List.Sublist.mem h (List.take_sublist _ _)
  have h2 := (sortByScoreDesc_perm _).mem_iff.mp h1
  rcases List.mem_flatMap.mp h2 with ⟨p, _, hr⟩
  unfold batchOutcome at hr
  cases hp2 : p.2 with
  | error e => rw [hp2] at hr; cases hr
  | ok text => rw [hp2] at hr; exact parseBatchResponse_keeps hr

theorem relevantPred_of_keeps {min : Int} {r : Json}
    (h : keepsRecord min r = true) : relevantPred min r = Except.ok true := by
  rcases keepsRecord_spec h with ⟨sv, h1, ht, scv, h2, hge⟩
  simp [relevantPred, h1, h2, ht, hge, bind, Except.bind, pure, Except.pure]

theorem mem_rankAndTruncate_of_le {maxB : Nat} {l : List Json} {r : Json}
    (hr : r ∈ l) (hlen : l.length ≤ maxB) : r ∈ rankAndTruncate maxB l := by
  unfold rankAndTruncate
  rw [List.take_of_length_le (by rw [(sortByScoreDesc_perm l).length_eq]; exact hlen)]
  exact (sortByScoreDesc_perm l).mem_iff.mpr hr

/-! ## Claims -/

/-- C1: Every AnalyzedArticle record in the Relevance Analyzer's output
(and hence in the final digest) has a falsy `skip` marker and a score at
least the configured `minRelevanceScore`; every parsed judge record that
is marked skip or scores below the minimum is discarded entirely by the
locally enforced filter, never retained as a partial record. -/
theorem analyzer_threshold_enforced :
    ∀ (cfg : Config) (articles : List Article)
      (responses : List (Except Unit String)) (r : Json),
      (r ∈ analyzeWithClaude cfg articles responses →
        ∃ sv, jsGetProp r "skip" = Except.ok sv ∧ jsTruthy sv = false ∧
          ∃ scv, jsGetProp r "score" = Except.ok scv ∧
            jsGE scv cfg.minRelevanceScore = true) ∧
      (∀ rs kept, filterRelevant cfg.minRelevanceScore rs = Except.ok kept →
        ∀ x ∈ rs, keepsRecord cfg.minRelevanceScore x = false → x ∉ kept) := by
  intro cfg articles responses r
  constructor
  · intro h
    exact keepsRecord_spec (mem_analyzeWithClaude h)
  · intro rs kept hf x hx hfalse hmem
    have hk := keepsRecord_of_relevantPred (filterE_ok_forall hf x hmem).1
    rw [hfalse] at hk
    exact Bool.noConfusion hk

/-- The article and judge record used to witness the threshold claim. -/
def artC1 : Article :=
  { title := "t", link := "l", pubDate := 0, content := "c" }

def recC1 : Json := Json.obj [("score", Json.num 9)]

theorem analyzer_threshold_enforced_witness :
    ∃ sv, jsGetProp recC1 "skip" = Except.ok sv ∧ jsTruthy sv = false ∧
      ∃ scv, jsGetProp recC1 "score" = Except.ok scv ∧
        jsGE scv CONFIG.minRelevanceScore = true :=
  (analyzer_threshold_enforced CONFIG [artC1]
    [Except.ok "[\x7b\"score\":9\x7d]"] recC1).1
    (by
      rw [show analyzeWithClaude CONFIG [artC1]
        [Except.ok "[\x7b\"score\":9\x7d]"] = [recC1] from rfl]
      exact List.mem_singleton.mpr rfl)

/-- C5: The Aggregator/Ranker is the truncation of a stable descending
sort: the sorted list is a permutation of the input, pairwise descending
in the score key, preserves the relative input order within every score
class (stability), and the truncated output — hence the final digest —
never exceeds `maxArticlesInBrief` items. -/
theorem ranker_stable_sorted_truncated :
    ∀ (maxB : Nat) (l : List Json) (cfg : Config) (arts : List Article)
      (resps : List (Except Unit String)),
      rankAndTruncate maxB l = (sortByScoreDesc l).take maxB ∧
      (sortByScoreDesc l).Perm l ∧
      List.Pairwise (fun a b => sortKey b ≤ sortKey a) (sortByScoreDesc l) ∧
      (∀ k : Int, (sortByScoreDesc l).filter (fun r => sortKey r == k) =
        l.filter (fun r => sortKey r == k)) ∧
      (rankAndTruncate maxB l).length ≤ maxB ∧
      (analyzeWithClaude cfg arts resps).length ≤ cfg.maxArticlesInBrief := by
  intro maxB l cfg arts resps
  refine ⟨rfl, sortByScoreDesc_perm l, sortByScoreDesc_sorted l,
    (fun k => sortByScoreDesc_filter_key l k), ?_, ?_⟩
  · unfold rankAndTruncate
    rw [List.length_take]
    exact min_le_left _ _
  · simp only [analyzeWithClaude]
    unfold rankAndTruncate
    rw [List.length_take]
    exact min_le_left _ _

/-- C6: A failing feed is absorbed by its `catch`: a run over a feed list
containing one failure returns exactly the run over the same list with
that feed removed — the failing feed contributes zero items, the run is
not aborted, and every other feed's items are unaffected. -/
theorem feed_failure_isolated :
    ∀ (cfg : Config) (now : Int)
      (xs ys : List (Except Unit (List RawItem))) (e : Unit),
      fetchRecentArticles cfg now (xs ++ Except.error e :: ys) =
        fetchRecentArticles cfg now (xs ++ ys) := by
  intro cfg now xs ys e
  unfold fetchRecentArticles
  rw [List.foldl_append, List.foldl_cons, List.foldl_append]
  rfl

/-- C10: The analyzer's local filter checks only `skip` and `score`: any
parsed record whose `skip` is falsy and whose score passes the threshold
is kept verbatim — no schema validation of `title`, `summary`,
`whyMatters`, `tags`, or `url` — and any kept record reaches the ranked
digest whenever the surviving records fit the digest size. -/
theorem analyzer_no_schema_validation :
    ∀ (min : Int) (rs kept : List Json) (r : Json),
      (filterRelevant min rs = Except.ok kept → r ∈ rs →
        keepsRecord min r = true → r ∈ kept) ∧
      (∀ (maxB : Nat) (l : List Json), r ∈ l → l.length ≤ maxB →
        r ∈ rankAndTruncate maxB l) := by
  intro min rs kept r
  constructor
  · intro hf hr hk
    exact filterE_ok_keeps hf hr (relevantPred_of_keeps hk)
  · intro maxB l hr hlen
    exact mem_rankAndTruncate_of_le hr hlen

/-- A record with no field but `score` (no title, summary, whyMatters,
tags or url), and a skipped companion record. -/
def bareRec : Json := Json.obj [("score", Json.num 9)]

def skippedRec : Json := Json.obj [("score", Json.num 9), ("skip", Json.bool true)]

theorem analyzer_no_schema_validation_witness :
    bareRec ∈ [bareRec] ∧ bareRec ∈ rankAndTruncate 15 [bareRec] :=
  ⟨(analyzer_no_schema_validation 5 [bareRec, skippedRec] [bareRec] bareRec).1
      rfl (List.mem_cons_self _ _) rfl,
    (analyzer_no_schema_validation 5 [bareRec, skippedRec] [bareRec] bareRec).2
      15 [bareRec] (List.mem_singleton.mpr rfl) (by decide)⟩

/-- C2 counterexample: the regex is greedy from the first opening bracket
to the last closing bracket of the whole response.  This response embeds
exactly one well-formed JSON-array data block (it parses, and its record
passes the threshold filter), but the surrounding prose contains an
earlier bracket, so the matched span is not the block and the analyzer
yields nothing instead of the parsed records. -/
theorem analyzer_greedy_regex_cex :
    parseBatchResponse 5 ("x[y] " ++ "[\x7b\"score\":9\x7d]") = [] ∧
    Json.parse "[\x7b\"score\":9\x7d]" =
      some (Json.arr [Json.obj [("score", Json.num 9)]]) ∧
    filterRelevant 5 [Json.obj [("score", Json.num 9)]] =
      Except.ok [Json.obj [("score", Json.num 9)]] ∧
    extractArrayMatch ("x[y] " ++ "[\x7b\"score\":9\x7d]") =
      some "[y] [\x7b\"score\":9\x7d]" :=
  ⟨rfl, rfl, rfl, rfl⟩

/-- C2 amended: the Analyzer matches the span from the first `[` to the
last `]` of the response.  When the well-formed data block is surrounded
by prose with no `[` before it and no `]` after it, that span is exactly
the block, and the batch yields the correctly parsed, threshold-filtered
records. -/
theorem analyzer_extracts_embedded_block :
    ∀ (min : Int) (p1 block p2 : String) (mid : List Char)
      (xs kept : List Json),
      '[' ∉ p1.data → ']' ∉ p2.data →
      block.data = '[' :: (mid ++ [']']) →
      Json.parse block = some (Json.arr xs) →
      filterRelevant min xs = Except.ok kept →
      parseBatchResponse min (p1 ++ block ++ p2) = kept := by
  intro min p1 block p2 mid xs kept h1 h2 hb hparse hfilt
  unfold parseBatchResponse
  rw [extractArrayMatch_embedded h1 h2 hb]
  simp only [hparse, hfilt]

theorem analyzer_extracts_embedded_block_witness :
    parseBatchResponse 5 ("ok: " ++ "[\x7b\"score\":8\x7d]" ++ " done") =
      [Json.obj [("score", Json.num 8)]] :=
  analyzer_extracts_embedded_block 5 "ok: " "[\x7b\"score\":8\x7d]" " done"
    ['\x7b', '"', 's', 'c', 'o', 'r', 'e', '"', ':', '8', '\x7d']
    [Json.obj [("score", Json.num 8)]] [Json.obj [("score", Json.num 8)]]
    (by decide) (by decide) rfl rfl rfl

/-- C3: Deduplication keys on `link` and the first occurrence wins: the
deduplicated list is an order-stable sublist of the input with pairwise
distinct links, each kept head silently absorbs every later article with
the same link, and `fetchRecentArticles` is exactly this deduplication
applied to the concatenated per-feed windowed items in feed-iteration
order. -/
theorem dedup_first_occurrence_wins :
    ∀ (l t : List Article) (a : Article) (cfg : Config) (now : Int)
      (feeds : List (Except Unit (List RawItem))),
      (dedupByLink l).Sublist l ∧
      List.Pairwise (fun x y => x.link ≠ y.link) (dedupByLink l) ∧
      dedupByLink (a :: t) =
        a :: dedupByLink (t.filter (fun b => !(b.link == a.link))) ∧
      fetchRecentArticles cfg now feeds =
        dedupByLink (feeds.flatMap (feedContribution cfg now)) := by
  intro l t a cfg now feeds
  refine ⟨dedupGo_sublist [] l, dedupGo_pairwise [] l, ?_,
    fetchRecentArticles_eq_dedup cfg now feeds⟩
  show dedupGo [] (a :: t) = a :: dedupGo [] (t.filter (fun b => !(b.link == a.link)))
  rw [dedupGo, if_neg (List.not_mem_nil a.link), dedupGo_cons_seen]

/-- C4: The window predicate keeps exactly the items whose publish time is
strictly after `now - hoursLookback`; an item at or before the cutoff is
excluded, an item after it is included, and an item with no publish date
defaults to `now` and (for a positive lookback) is never filtered out. -/
theorem window_filter_boundary :
    ∀ (cfg : Config) (now : Int) (items : List RawItem) (it : RawItem),
      it ∈ items →
      ((rawPubDate now it ≤ cutoffOf cfg now →
         it ∉ items.filter (isRecent cfg now)) ∧
       (cutoffOf cfg now < rawPubDate now it →
         it ∈ items.filter (isRecent cfg now)) ∧
       (it.pubDate = none → 0 < cfg.hoursLookback →
         it ∈ items.filter (isRecent cfg now))) := by
  intro cfg now items it hmem
  refine ⟨?_, ?_, ?_⟩
  · intro hle hcontra
    have hp := (List.mem_filter.mp hcontra).2
    unfold isRecent at hp
    simp only [decide_eq_true_eq] at hp
    omega
  · intro hgt
    refine List.mem_filter.mpr ⟨hmem, ?_⟩
    unfold isRecent
    simp only [decide_eq_true_eq]
    exact hgt
  · intro hnone hpos
    refine List.mem_filter.mpr ⟨hmem, ?_⟩
    unfold isRecent rawPubDate cutoffOf
    rw [hnone]
    simp only [Option.getD_none, decide_eq_true_eq]
    omega

/-- A raw item with every field absent (in particular no publish date). -/
def itNoDate : RawItem :=
  { title := none, link := none, pubDate := none, content := none,
    contentSnippet := none, summary := none }

theorem window_filter_boundary_witness :
    itNoDate ∈ List.filter (isRecent CONFIG 1700000000000) [itNoDate] :=
  (window_filter_boundary CONFIG 1700000000000 [itNoDate] itNoDate
    (List.mem_singleton.mpr rfl)).2.2 rfl (by decide)

/-- C7 counterexample: a record with a missing `tags` field makes the very
first section filter of the renderer throw a TypeError
(`a.tags.includes` on `undefined`), so the rendering stage errors instead
of degrading to omission. -/
theorem renderer_missing_tags_throws :
    formatEmailBrief "today" [Json.obj [("score", Json.num 8)]] =
      Except.error () := rfl

/-- C7 amended: the renderer does have a failure mode on malformed input —
a record missing `tags` (or `summary`) throws.  For input records whose
`tags` and `summary` fields are present as arrays, rendering is total,
and an article whose tags omit a section's label is omitted from that
section's list. -/
theorem renderer_total_on_wellshaped :
    ∀ (dateStr : String) (articles : List Json),
      (∀ a ∈ articles, WellShaped a) →
      (∃ s, formatEmailBrief dateStr articles = Except.ok s) ∧
      filterE (hasTag "Regulatory") articles =
        Except.ok (articles.filter (tagMem "Regulatory")) ∧
      (∀ a ∈ articles, tagMem "Regulatory" a = false →
        a ∉ articles.filter (tagMem "Regulatory")) := by
  intro dateStr articles h
  refine ⟨formatEmailBrief_ok dateStr articles h,
    filterE_ok_of_fn (fun a ha => hasTag_of_wellShaped (h a ha) "Regulatory"),
    ?_⟩
  intro a ha hfalse hcontra
  have hp := (List.mem_filter.mp hcontra).2
  rw [hfalse] at hp
  exact Bool.noConfusion hp

/-- A schema-conforming record for the renderer witness. -/
def aOk7 : Json :=
  Json.obj [("tags", Json.arr [Json.str "Market"]),
            ("summary", Json.arr [Json.str "b1"])]

theorem renderer_total_on_wellshaped_witness :
    ∃ s, formatEmailBrief "d" [aOk7] = Except.ok s :=
  (renderer_total_on_wellshaped "d" [aOk7] (by
    intro a ha
    rw [List.mem_singleton] at ha
    subst ha
    exact ⟨_, _, _, rfl, rfl, rfl⟩)).1

/-- C8: A run with zero articles after fetching/filtering terminates as
the `noArticles` outcome, a run whose analysis yields zero records
terminates as `noRelevant`, and mail is sent only when both stages
produced something — the two zero cases are "nothing to report"
terminals, not errors. -/
theorem zero_articles_nothing_to_report :
    ∀ (cfg : Config) (now : Int) (dateStr : String)
      (feeds : List (Except Unit (List RawItem)))
      (responses : List (Except Unit String)),
      (fetchRecentArticles cfg now feeds = [] →
        processAndSendBrief cfg now dateStr feeds responses =
          RunOutcome.noArticles) ∧
      (fetchRecentArticles cfg now feeds ≠ [] →
        analyzeWithClaude cfg (fetchRecentArticles cfg now feeds) responses = [] →
        processAndSendBrief cfg now dateStr feeds responses =
          RunOutcome.noRelevant) ∧
      (∀ n html,
        processAndSendBrief cfg now dateStr feeds responses =
          RunOutcome.sent n html →
        fetchRecentArticles cfg now feeds ≠ [] ∧
        analyzeWithClaude cfg (fetchRecentArticles cfg now feeds) responses ≠ []) := by
  intro cfg now dateStr feeds responses
  refine ⟨?_, ?_, ?_⟩
  · intro hz
    unfold processAndSendBrief
    rw [hz]
    rfl
  · intro hne hz
    unfold processAndSendBrief
    rw [if_neg (by simpa [List.isEmpty_iff] using hne), hz]
    rfl
  · intro n html hsent
    unfold processAndSendBrief at hsent
    dsimp only at hsent
    split at hsent
    · exact absurd hsent (by simp)
    · rename_i hfetch
      split at hsent
      · exact absurd hsent (by simp)
      · rename_i hana
        constructor
        · intro hz
          exact hfetch (by rw [hz]; rfl)
        · intro hz
          exact hana (by rw [hz]; rfl)

theorem zero_articles_nothing_to_report_witness :
    processAndSendBrief CONFIG 0 "d" [] [] = RunOutcome.noArticles :=
  (zero_articles_nothing_to_report CONFIG 0 "d" [] []).1 rfl

/-- Modelled from the spec for the refinement comparison only: "From the
parsed feed, take at most `maxArticlesPerFeed` items", with the time
window applied only afterwards (truncate-then-window). -/
def perFeedSpecTruncateFirst (cfg : Config) (now : Int)
    (items : List RawItem) : List Article :=
  ((items.take cfg.maxArticlesPerFeed).filter (isRecent cfg now)).map
    (normalizeItem now)

/-- A stale item (published at epoch) and a family of fresh items for the
truncation-order comparison. -/
def oldItem : RawItem :=
  { title := some "t0", link := some "l0", pubDate := some 0,
    content := none, contentSnippet := none, summary := none }

def freshItem (i : Nat) : RawItem :=
  { title := some ("t" ++ toString i), link := some ("l" ++ toString i),
    pubDate := some 199999999, content := none, contentSnippet := none,
    summary := none }

/-- C9 counterexample: with one stale item ahead of four fresh ones and
`maxArticlesPerFeed = 3`, the code (window first, then truncate) keeps
three fresh articles, while the spec's order (truncate first, then
window) would keep only two — the per-feed result does not equal the
window filter applied to the first `maxArticlesPerFeed` parsed items. -/
theorem perfeed_truncation_order_cex :
    perFeedRecent CONFIG 200000000
        [oldItem, freshItem 1, freshItem 2, freshItem 3, freshItem 4] =
      [normalizeItem 200000000 (freshItem 1),
       normalizeItem 200000000 (freshItem 2),
       normalizeItem 200000000 (freshItem 3)] ∧
    perFeedSpecTruncateFirst CONFIG 200000000
        [oldItem, freshItem 1, freshItem 2, freshItem 3, freshItem 4] =
      [normalizeItem 200000000 (freshItem 1),
       normalizeItem 200000000 (freshItem 2)] ∧
    perFeedRecent CONFIG 200000000
        [oldItem, freshItem 1, freshItem 2, freshItem 3, freshItem 4] ≠
      perFeedSpecTruncateFirst CONFIG 200000000
        [oldItem, freshItem 1, freshItem 2, freshItem 3, freshItem 4] := by
  refine ⟨rfl, rfl, ?_⟩
  intro h
  rw [show perFeedRecent CONFIG 200000000
      [oldItem, freshItem 1, freshItem 2, freshItem 3, freshItem 4] =
    [normalizeItem 200000000 (freshItem 1),
     normalizeItem 200000000 (freshItem 2),
     normalizeItem 200000000 (freshItem 3)] from rfl,
    show perFeedSpecTruncateFirst CONFIG 200000000
      [oldItem, freshItem 1, freshItem 2, freshItem 3, freshItem 4] =
    [normalizeItem 200000000 (freshItem 1),
     normalizeItem 200000000 (freshItem 2)] from rfl] at h
  have hlen := congrArg List.length h
  simp only [List.length_cons, List.length_nil] at hlen
  omega

/-- C9 amended: each feed's contribution applies the window filter to the
parsed items first and truncates to `maxArticlesPerFeed` afterwards (the
first fresh items in feed order — still a pure ordering truncation, not a
relevance selection); the spec's truncate-then-window form agrees exactly
when every parsed item lies within the window. -/
theorem perfeed_window_before_truncation :
    ∀ (cfg : Config) (now : Int) (items : List RawItem),
      perFeedRecent cfg now items =
        ((items.filter (isRecent cfg now)).take cfg.maxArticlesPerFeed).map
          (normalizeItem now) ∧
      ((∀ it ∈ items, isRecent cfg now it = true) →
        perFeedRecent cfg now items = perFeedSpecTruncateFirst cfg now items) := by
  intro cfg now items
  refine ⟨rfl, ?_⟩
  intro hall
  unfold perFeedRecent perFeedSpecTruncateFirst
  rw [List.filter_eq_self.mpr hall,
    List.filter_eq_self.mpr
      (fun a ha => hall a (List.Sublist.mem ha (List.take_sublist _ _)))]

theorem perfeed_window_before_truncation_witness :
    perFeedRecent CONFIG 200000000 [freshItem 1] =
      perFeedSpecTruncateFirst CONFIG 200000000 [freshItem 1] :=
  (perfeed_window_before_truncation CONFIG 200000000 [freshItem 1]).2
    (by
      intro it hit
      rw [List.mem_singleton] at hit
      subst hit
      decide)
